import Mathlib

/-!
Verification of the section-span locator of the pdf-sections Streamlit app
(`app.py`).  The Python source is shallowly embedded: strings become
`List Char`, `str.splitlines(keepends=True)` becomes `splitlinesKeep`,
`normalize` becomes `normalize`, the three compiled heading regexes become
the decidable matchers `hToday`, `hAmer`, `hGC`, and the single
left-to-right scan of `find_section_spans` becomes a fold of `stepTargets`
over the line indices.
-/

set_option maxRecDepth 400000

namespace PdfSections

/-- The characters Python's `str.splitlines` treats as line boundaries
(`\r\n` is additionally handled as a single boundary). -/
def isPyBreak (c : Char) : Bool :=
  c = '\n' || c = '\r' || c = '\x0b' || c = '\x0c' || c = '\x1c' ||
  c = '\x1d' || c = '\x1e' || c = '\x85' || c = '\u2028' || c = '\u2029'

/-- The characters Python's `str.strip()` / `str.isspace` (and `\s` in a
`str` regex) treat as whitespace. -/
def isPySpace (c : Char) : Bool :=
  c = ' ' || c = '\t' || c = '\n' || c = '\r' || c = '\x0b' || c = '\x0c' ||
  c = '\x1c' || c = '\x1d' || c = '\x1e' || c = '\x1f' || c = '\x85' ||
  c = '\xa0' || c = '\u1680' ||
  (decide (0x2000 ≤ c.toNat) && decide (c.toNat ≤ 0x200a)) ||
  c = '\u2028' || c = '\u2029' || c = '\u202f' || c = '\u205f' || c = '\u3000'

/-- Worker for `splitlinesKeep`; `acc` holds the (reversed) characters of
the line being accumulated. -/
def splitlinesAux : List Char → List Char → List (List Char)
  | [], acc => if acc.isEmpty then [] else [acc.reverse]
  | [c], acc => [acc.reverse ++ [c]]
  | c :: d :: rest, acc =>
    if c = '\r' && d = '\n' then (acc.reverse ++ ['\r', '\n']) :: splitlinesAux rest []
    else if isPyBreak c then (acc.reverse ++ [c]) :: splitlinesAux (d :: rest) []
    else splitlinesAux (d :: rest) (c :: acc)

/-- Python `full_text.splitlines(keepends=True)`: each line keeps its
terminator, a trailing line without terminator is kept, `""` gives `[]`. -/
def splitlinesKeep (s : List Char) : List (List Char) :=
  splitlinesAux s []

/-- The character replacement in `normalize`:
`s.replace("’", "'").replace("–", "-").replace("—", "-")` (each pattern is a
single character, so the three `str.replace` calls are a character map). -/
def replTypo (c : Char) : Char :=
  if c = '’' then '\'' else if c = '–' then '-' else if c = '—' then '-' else c

/-- Python `s.strip()`: drop leading and trailing whitespace. -/
def pyStrip (s : List Char) : List Char :=
  ((s.dropWhile isPySpace).reverse.dropWhile isPySpace).reverse

/-- Worker for `re.sub(r"\s+", " ", s)`: `prev` records whether the
previous character was whitespace, so each maximal whitespace run is
replaced by a single space. -/
def collapseWSAux : List Char → Bool → List Char
  | [], _ => []
  | c :: r, prev =>
    if isPySpace c then
      if prev then collapseWSAux r true else ' ' :: collapseWSAux r true
    else c :: collapseWSAux r false

/-- `re.sub(r"\s+", " ", s)`. -/
def collapseWS (s : List Char) : List Char :=
  collapseWSAux s false

/-- Python `str.lower` restricted to ASCII via `Char.toLower` (the heading
patterns and alias sets contain only ASCII letters). -/
def pyLower (c : Char) : Char := Char.toLower c

/-- `normalize` from `app.py`: typographic replacements, then
`re.sub(r"\s+", " ", s.strip())`, then `.lower()`. -/
def normalize (s : List Char) : List Char :=
  (collapseWS (pyStrip (s.map replTypo))).map pyLower

/-- `s.endswith((".", "!", "?", ";", ","))`. -/
def endsPunct (s : List Char) : Bool :=
  match s.getLast? with
  | some c => c = '.' || c = '!' || c = '?' || c = ';' || c = ','
  | none => false

/-- `looks_like_heading` from `app.py`: the stripped line is non-empty, at
most 80 characters, and does not end in sentence punctuation. -/
def looks_like_heading (raw : List Char) : Bool :=
  let s := pyStrip raw
  !s.isEmpty && decide (s.length ≤ 80) && !endsPunct s

/-! ### The three heading regexes

`enum = (?:\d+\s*[.)]\s*)?` and the patterns
`^{enum}today'?s\s+must-?know\s+news\s*$`, `^{enum}americas\s*$`,
`^{enum}greater\s+china\s*$`, applied with `re.match` (so anchored on both
ends).  They are embedded as deterministic scanners; greedy matching with
no backtracking is faithful here because every `\d+`/`\s*`/`\s+` is
followed by a character class disjoint from it. -/

/-- Match a literal string at the front, returning the rest. -/
def dropLit : List Char → List Char → Option (List Char)
  | [], s => some s
  | _ :: _, [] => none
  | c :: l, d :: s => if c = d then dropLit l s else none

/-- `\s+`: require at least one whitespace character, then skip the run. -/
def reqSpaces : List Char → Option (List Char)
  | [] => none
  | c :: r => if isPySpace c then some (r.dropWhile isPySpace) else none

/-- An optional single character (`'?` / `-?`). -/
def skipOptChar (c : Char) : List Char → List Char
  | [] => []
  | x :: r => if x = c then r else x :: r

/-- `\s*$` applied to the unconsumed rest of the line. -/
def tailSpaces : Option (List Char) → Bool
  | some r => r.all isPySpace
  | none => false

/-- The body of `H_AMER` after the optional enumeration: `americas\s*$`. -/
def coreAmer (s : List Char) : Bool :=
  tailSpaces (dropLit ("americas".toList) s)

/-- The body of `H_GC` after the optional enumeration:
`greater\s+china\s*$`. -/
def coreGC (s : List Char) : Bool :=
  tailSpaces (((dropLit ("greater".toList) s).bind reqSpaces).bind
    (dropLit ("china".toList)))

/-- The body of `H_TODAY` after the optional enumeration:
`today'?s\s+must-?know\s+news\s*$`. -/
def coreToday (s : List Char) : Bool :=
  let r1 := (dropLit ("today".toList) s).map (skipOptChar '\'')
  let r2 := r1.bind (dropLit ("s".toList))
  let r3 := r2.bind reqSpaces
  let r4 := (r3.bind (dropLit ("must".toList))).map (skipOptChar '-')
  let r5 := r4.bind (dropLit ("know".toList))
  let r6 := r5.bind reqSpaces
  tailSpaces (r6.bind (dropLit ("news".toList)))

/-- The enumeration group `\d+\s*[.)]\s*`: one or more digits, optional
whitespace, `.` or `)`, optional whitespace. -/
def matchEnum (s : List Char) : Option (List Char) :=
  if (s.takeWhile Char.isDigit).isEmpty then none
  else
    match (s.dropWhile Char.isDigit).dropWhile isPySpace with
    | c :: r => if c = '.' || c = ')' then some (r.dropWhile isPySpace) else none
    | [] => none

/-- A full pattern `^{enum}core`: the enumeration group is optional. -/
def withEnum (core : List Char → Bool) (s : List Char) : Bool :=
  core s ||
    (match matchEnum s with
     | some r => core r
     | none => false)

/-- `H_TODAY.match(norm)` as a Bool. -/
def hToday (s : List Char) : Bool := withEnum coreToday s

/-- `H_AMER.match(norm)` as a Bool. -/
def hAmer (s : List Char) : Bool := withEnum coreAmer s

/-- `H_GC.match(norm)` as a Bool. -/
def hGC (s : List Char) : Bool := withEnum coreGC s

/-! ### `find_section_spans` -/

/-- `US_ALIASES = {"us", "u.s.", "usa", "u.s.a.", "united states"}` (a set;
modelled as a list, membership being all that is used). -/
def usAliases : List (List Char) :=
  ["us".toList, "u.s.".toList, "usa".toList, "u.s.a.".toList,
   "united states".toList]

/-- `CN_ALIASES = {"cn", "prc", "china"}`. -/
def cnAliases : List (List Char) :=
  ["cn".toList, "prc".toList, "china".toList]

/-- The three target section keys of `SECTION_ORDER`. -/
inductive SKey where
  | todays
  | americas
  | greater
deriving DecidableEq

/-- The `target_idx` dict: for each key, the resolved heading start line
index, if any. -/
structure TargetIdx where
  todays : Option Nat
  americas : Option Nat
  greater : Option Nat
deriving DecidableEq

/-- Dict lookup on `target_idx`. -/
def TargetIdx.get (t : TargetIdx) : SKey → Option Nat
  | .todays => t.todays
  | .americas => t.americas
  | .greater => t.greater

/-- The line skipped to by `j = i + 1; while j < n and not L[j][1].strip():
j += 1`, i.e. the smallest index `j ≥ j0` whose raw line strips to
non-empty, when one exists (`if j < n`). -/
def nextNonBlank (lines : List (List Char)) (j0 : Nat) : Option Nat :=
  (List.range lines.length).find?
    (fun j => decide (j0 ≤ j) && !(pyStrip (lines.getD j [])).isEmpty)

/-- One iteration of the `for i, raw, norm in L` loop restricted to the
`target_idx` updates: the three single-line checks, then the two-line
alias checks, each guarded by "key not already present". -/
def stepTargets (lines : List (List Char)) (t : TargetIdx) (i : Nat) :
    TargetIdx :=
  let norm := normalize (lines.getD i [])
  let t1 := if t.todays.isNone && hToday norm then
    { t with todays := some i } else t
  let t2 := if t1.americas.isNone && hAmer norm then
    { t1 with americas := some i } else t1
  let t3 := if t2.greater.isNone && hGC norm then
    { t2 with greater := some i } else t2
  match nextNonBlank lines (i + 1) with
  | none => t3
  | some j =>
    let nj := normalize (lines.getD j [])
    let t4 := if t3.americas.isNone && usAliases.contains norm && hAmer nj then
      { t3 with americas := some i } else t3
    if t4.greater.isNone && cnAliases.contains norm && hGC nj then
      { t4 with greater := some i } else t4

/-- The full left-to-right scan building `target_idx`. -/
def targetIdx (lines : List (List Char)) : TargetIdx :=
  (List.range lines.length).foldl (stepTargets lines) ⟨none, none, none⟩

/-- `all_heads_sorted`: the indices of lines passing `looks_like_heading`,
in ascending order (the loop adds to a set, then sorts). -/
def allHeads (lines : List (List Char)) : List Nat :=
  (List.range lines.length).filter
    (fun i => looks_like_heading (lines.getD i []))

/-- `sum(len(lines[k]) for k in range(m))` is `sumLen (lines.take m)`. -/
def sumLen (l : List (List Char)) : Nat :=
  (l.map List.length).sum

/-- `end_line` in `span_from`: the first (hence smallest) element of the
sorted heading-candidate list strictly greater than `start_line`, or the
total line count if none exists. -/
def endLine (lines : List (List Char)) (heads : List Nat)
    (start_line : Nat) : Nat :=
  (heads.find? (fun h => decide (start_line < h))).getD lines.length

/-- `span_from` from `app.py`: returns
`(start_abs, end_abs, start_line)`. -/
def span_from (lines : List (List Char)) (heads : List Nat)
    (start_line : Nat) : Nat × Nat × Nat :=
  (sumLen (lines.take start_line),
   sumLen (lines.take (endLine lines heads start_line)),
   start_line)

/-- The returned `spans` dict: for each of the three keys, the value
`span_from(target_idx[key])` when the key was resolved. -/
structure Spans where
  todays : Option (Nat × Nat × Nat)
  americas : Option (Nat × Nat × Nat)
  greater : Option (Nat × Nat × Nat)
deriving DecidableEq

/-- Dict lookup on the result of `find_section_spans`. -/
def Spans.get (sp : Spans) : SKey → Option (Nat × Nat × Nat)
  | .todays => sp.todays
  | .americas => sp.americas
  | .greater => sp.greater

/-- `find_section_spans` from `app.py`. -/
def find_section_spans (full_text : List Char) : Spans :=
  let lines := splitlinesKeep full_text
  let t := targetIdx lines
  let heads := allHeads lines
  { todays := t.todays.map (span_from lines heads)
  , americas := t.americas.map (span_from lines heads)
  , greater := t.greater.map (span_from lines heads) }

/-- Python slicing `full_text[a:b]` (for `a ≤ b ≤ len`). -/
def pySlice (t : List Char) (a b : Nat) : List Char :=
  (t.drop a).take (b - a)

/-- A line index qualifies as a match for a key exactly when the scan,
arriving there with the key still unresolved, would record it: a
single-line pattern match, or (for americas / greater china) the two-line
alias form. -/
def qualifies (lines : List (List Char)) (k : SKey) (i : Nat) : Bool :=
  let norm := normalize (lines.getD i [])
  match k with
  | .todays => hToday norm
  | .americas =>
    hAmer norm ||
      (match nextNonBlank lines (i + 1) with
       | some j => usAliases.contains norm && hAmer (normalize (lines.getD j []))
       | none => false)
  | .greater =>
    hGC norm ||
      (match nextNonBlank lines (i + 1) with
       | some j => cnAliases.contains norm && hGC (normalize (lines.getD j []))
       | none => false)

/-- Two spans occupy disjoint half-open character ranges. -/
def spanDisjoint (u v : Nat × Nat × Nat) : Prop :=
  u.2.1 ≤ v.1 ∨ v.2.1 ≤ u.1

instance (u v : Nat × Nat × Nat) : Decidable (spanDisjoint u v) := by
  unfold spanDisjoint
  exact inferInstance

/-- Canonical-order comparison on two optional heading line indices: holds
vacuously unless both keys were resolved. -/
def inOrder (a b : Option Nat) : Bool :=
  match a, b with
  | some x, some y => decide (x < y)
  | _, _ => true

/-- The end-to-end example document of the spec (section 8). -/
def exDoc : List Char :=
  ("1. Today's Must-Know News\nSome headline here.\n\nAmericas\n" ++
   "- Fed holds rates.\n\nGreater China\n- Chip export curbs tighten.\n").toList

/-- A document whose americas heading is resolved through the two-line
alias form at the line "U.S.", which ends in "." and therefore fails
`looks_like_heading`. -/
def aliasDoc : List Char :=
  "Today's Must-Know News\nU.S.\nAmericas\n".toList

/-! ### Basic lemmas about the embedded operations -/

theorem flatten_splitlinesAux (s acc : List Char) :
    (splitlinesAux s acc).flatten = acc.reverse ++ s := by
  induction s, acc using splitlinesAux.induct <;> simp_all [splitlinesAux]
  case _ c d rest acc hne hbr ih =>
    rw [if_neg (fun hh => hne hh.1 hh.2)]
    simp [ih]
  case _ c d rest acc hne hbr ih =>
    rw [if_neg (fun hh => hne hh.1 hh.2)]
    simpa using ih

/-- The verbatim invariant of the data model: concatenating the lines of
`splitlines(keepends=True)` reproduces the original text exactly. -/
theorem flatten_splitlinesKeep (s : List Char) :
    (splitlinesKeep s).flatten = s := by
  simpa using flatten_splitlinesAux s []

theorem sumLen_take_le_sumLen (l : List (List Char)) (a : Nat) :
    sumLen (l.take a) ≤ sumLen l := by
  induction l generalizing a with
  | nil => simp [sumLen]
  | cons x l ih =>
    cases a with
    | zero => simp [sumLen]
    | succ a =>
      simp only [List.take_succ_cons, sumLen, List.map_cons, List.sum_cons]
      exact Nat.add_le_add_left (ih a) x.length

theorem sumLen_take_mono (l : List (List Char)) {a b : Nat} (h : a ≤ b) :
    sumLen (l.take a) ≤ sumLen (l.take b) := by
  have : l.take a = (l.take b).take a := by
    rw [List.take_take, Nat.min_eq_left h]
  rw [this]
  exact sumLen_take_le_sumLen (l.take b) a

theorem sumLen_eq_length_flatten (l : List (List Char)) :
    sumLen l = l.flatten.length := by
  simp [sumLen, List.length_flatten]

/-- Re-inserting the slice `t[a:b]` between `t[:a]` and `t[b:]` reproduces
`t` exactly. -/
theorem splice_eq (t : List Char) {a b : Nat} (hab : a ≤ b) :
    t.take a ++ pySlice t a b ++ t.drop b = t := by
  have hdrop : t.drop b = (t.drop a).drop (b - a) := by
    rw [List.drop_drop]
    congr 1
    omega
  rw [pySlice, hdrop, List.append_assoc, List.take_append_drop,
    List.take_append_drop]

/-- `find?` on a strictly sorted list returns the least element satisfying
the predicate. -/
theorem sorted_find?_least {p : Nat → Bool} :
    ∀ {l : List Nat}, l.Pairwise (· < ·) → ∀ {x : Nat},
      l.find? p = some x →
      p x = true ∧ x ∈ l ∧ ∀ y ∈ l, p y = true → x ≤ y := by
  intro l
  induction l with
  | nil => intro _ x h; simp [List.find?] at h
  | cons a l ih =>
    intro hpw x h
    cases hpa : p a with
    | true =>
      simp only [List.find?_cons, hpa, Option.some.injEq] at h
      subst h
      refine ⟨hpa, List.mem_cons_self a l, ?_⟩
      intro y hy _
      rcases List.mem_cons.mp hy with rfl | hy
      · exact Nat.le_refl _
      · exact Nat.le_of_lt ((List.pairwise_cons.mp hpw).1 y hy)
    | false =>
      simp only [List.find?_cons, hpa] at h
      obtain ⟨hx, hmem, hleast⟩ := ih (List.pairwise_cons.mp hpw).2 h
      refine ⟨hx, List.mem_cons_of_mem a hmem, ?_⟩
      intro y hy hpy
      rcases List.mem_cons.mp hy with rfl | hy
      · rw [hpa] at hpy; exact absurd hpy (by simp)
      · exact hleast y hy hpy

theorem range_find?_some {p : Nat → Bool} {n s : Nat}
    (h : (List.range n).find? p = some s) :
    s < n ∧ p s = true ∧ ∀ m, m < s → p m = false := by
  obtain ⟨hp, hmem, hleast⟩ := sorted_find?_least (List.pairwise_lt_range n) h
  refine ⟨List.mem_range.mp hmem, hp, ?_⟩
  intro m hm
  by_contra hpm
  have hpm' : p m = true := by
    cases hq : p m with
    | false => exact absurd hq hpm
    | true => rfl
  have : s ≤ m :=
    hleast m (List.mem_range.mpr (Nat.lt_trans hm (List.mem_range.mp hmem))) hpm'
  omega

theorem allHeads_sorted (lines : List (List Char)) :
    (allHeads lines).Pairwise (· < ·) :=
  (List.pairwise_lt_range lines.length).filter _

/-- Membership in the heading-candidate set, unfolded to the three
conditions of `looks_like_heading`. -/
theorem mem_allHeads (lines : List (List Char)) (i : Nat) :
    i ∈ allHeads lines ↔
      i < lines.length ∧ looks_like_heading (lines.getD i []) = true := by
  simp [allHeads, List.mem_filter, List.mem_range, and_comm]

/-! ### The scan resolves each key to its first qualifying line -/

set_option maxHeartbeats 1600000 in
/-- Effect of one scan step on one key of `target_idx`: the key is set to
`i` exactly when it was still unresolved and line `i` qualifies (by
single-line match or two-line alias form); an already present value is
never overwritten. -/
theorem stepTargets_get (lines : List (List Char)) (t : TargetIdx) (i : Nat)
    (k : SKey) :
    (stepTargets lines t i).get k =
      if (t.get k).isNone && qualifies lines k i then some i else t.get k := by
  obtain ⟨a, b, c⟩ := t
  cases hnb : nextNonBlank lines (i + 1) with
  | none =>
    cases k <;>
      simp only [stepTargets, qualifies, hnb, TargetIdx.get] <;>
      (repeat' split) <;> simp_all
  | some j =>
    cases k <;>
      simp only [stepTargets, qualifies, hnb, TargetIdx.get] <;>
      (repeat' split) <;> simp_all

/-- Folding the scan step over any index list: an initially resolved key
is kept, otherwise the first qualifying index in the list is taken. -/
theorem foldl_stepTargets_get (lines : List (List Char)) (k : SKey) :
    ∀ (l : List Nat) (t : TargetIdx),
      (l.foldl (stepTargets lines) t).get k =
        if (t.get k).isSome then t.get k
        else l.find? (fun i => qualifies lines k i) := by
  intro l
  induction l with
  | nil => intro t; cases hk : t.get k <;> simp [hk]
  | cons a l ih =>
    intro t
    rw [List.foldl_cons, ih, stepTargets_get, List.find?_cons]
    cases hk : t.get k with
    | some v => simp [hk]
    | none =>
      simp only [hk, Option.isNone_none, Bool.true_and]
      cases hq : qualifies lines k a <;> simp [hq]

/-- `target_idx[key]` is the first (smallest) qualifying line index. -/
theorem targetIdx_get (lines : List (List Char)) (k : SKey) :
    (targetIdx lines).get k =
      (List.range lines.length).find? (fun i => qualifies lines k i) := by
  rw [targetIdx, foldl_stepTargets_get]
  cases k <;> simp [TargetIdx.get]

/-- Indices at or beyond the line count never qualify (the scan only
visits real lines; `getD` returns the empty default there). -/
theorem qualifies_oob (lines : List (List Char)) (k : SKey) {i : Nat}
    (h : lines.length ≤ i) : qualifies lines k i = false := by
  have hline : lines[i]? = none := by
    rw [List.getElem?_eq_none_iff]
    exact h
  have h1 : hToday (normalize ([] : List Char)) = false := by decide
  have h2 : hAmer (normalize ([] : List Char)) = false := by decide
  have h3 : hGC (normalize ([] : List Char)) = false := by decide
  have h4 : (normalize ([] : List Char)) ∉ usAliases := by decide
  have h5 : (normalize ([] : List Char)) ∉ cnAliases := by decide
  cases hnb : nextNonBlank lines (i + 1) <;>
    cases k <;> simp [qualifies, hline, hnb, h1, h2, h3, h4, h5]

/-- The returned span for each key is `span_from` of the resolved heading
line, when one exists. -/
theorem find_section_spans_get (text : List Char) (k : SKey) :
    (find_section_spans text).get k =
      ((targetIdx (splitlinesKeep text)).get k).map
        (span_from (splitlinesKeep text) (allHeads (splitlinesKeep text))) := by
  cases k <;> rfl

/-- `end_line` is strictly beyond the start line and at most the line
count, whenever the start line is a real line. -/
theorem endLine_bounds (lines : List (List Char)) {s : Nat}
    (hs : s < lines.length) :
    s < endLine lines (allHeads lines) s ∧
      endLine lines (allHeads lines) s ≤ lines.length := by
  rw [endLine]
  cases hfind : (allHeads lines).find? (fun h => decide (s < h)) with
  | none =>
    simp only [Option.getD_none]
    exact ⟨hs, Nat.le_refl _⟩
  | some e =>
    obtain ⟨hpe, hmem, _⟩ := sorted_find?_least (allHeads_sorted lines) hfind
    have he : s < e := of_decide_eq_true hpe
    have hlt : e < lines.length := ((mem_allHeads lines e).mp hmem).1
    simp only [Option.getD_some]
    exact ⟨he, Nat.le_of_lt hlt⟩

/-- `end_line` is either the least heading candidate strictly after the
start line, or the line count when no candidate lies after it. -/
theorem endLine_spec (lines : List (List Char)) (s : Nat) :
    (endLine lines (allHeads lines) s ∈ allHeads lines ∧
      s < endLine lines (allHeads lines) s ∧
      ∀ h ∈ allHeads lines, s < h → endLine lines (allHeads lines) s ≤ h) ∨
    (endLine lines (allHeads lines) s = lines.length ∧
      ∀ h ∈ allHeads lines, ¬ s < h) := by
  rw [endLine]
  cases hfind : (allHeads lines).find? (fun h => decide (s < h)) with
  | none =>
    right
    refine ⟨rfl, ?_⟩
    intro h hmem
    have := List.find?_eq_none.mp hfind h hmem
    simpa using this
  | some e =>
    left
    obtain ⟨hpe, hmem, hleast⟩ := sorted_find?_least (allHeads_sorted lines) hfind
    exact ⟨hmem, of_decide_eq_true hpe,
      fun h hm hlt => hleast h hm (decide_eq_true hlt)⟩

/-- If some heading candidate lies strictly after `s`, then `end_line`
stops at or before it. -/
theorem endLine_le_of_mem (lines : List (List Char)) {s h0 : Nat}
    (hmem : h0 ∈ allHeads lines) (hgt : s < h0) :
    endLine lines (allHeads lines) s ≤ h0 := by
  rw [endLine]
  cases hfind : (allHeads lines).find? (fun h => decide (s < h)) with
  | none =>
    have := List.find?_eq_none.mp hfind h0 hmem
    simp [hgt] at this
  | some e =>
    obtain ⟨_, _, hleast⟩ := sorted_find?_least (allHeads_sorted lines) hfind
    simpa using hleast h0 hmem (decide_eq_true hgt)

/-- Everything `find_section_spans` guarantees about one resolved key:
the recorded heading line, the bounds of the line indices, and the two
character offsets as prefix length sums. -/
theorem resolved_span {text : List Char} {k : SKey} {st en s : Nat}
    (h : (find_section_spans text).get k = some (st, en, s)) :
    (targetIdx (splitlinesKeep text)).get k = some s ∧
    s < (splitlinesKeep text).length ∧
    st = sumLen ((splitlinesKeep text).take s) ∧
    en = sumLen ((splitlinesKeep text).take
      (endLine (splitlinesKeep text) (allHeads (splitlinesKeep text)) s)) ∧
    s < endLine (splitlinesKeep text) (allHeads (splitlinesKeep text)) s ∧
    endLine (splitlinesKeep text) (allHeads (splitlinesKeep text)) s ≤
      (splitlinesKeep text).length := by
  rw [find_section_spans_get] at h
  obtain ⟨s0, hs0, hsp⟩ := Option.map_eq_some'.mp h
  have h3 : s0 = s := congrArg (fun p => p.2.2) hsp
  subst h3
  have h1 : st = sumLen ((splitlinesKeep text).take s0) :=
    (congrArg (fun p => p.1) hsp).symm
  have h2 : en = sumLen ((splitlinesKeep text).take
      (endLine (splitlinesKeep text) (allHeads (splitlinesKeep text)) s0)) :=
    (congrArg (fun p => p.2.1) hsp).symm
  have hsn : s0 < (splitlinesKeep text).length := by
    rw [targetIdx_get] at hs0
    exact (range_find?_some hs0).1
  obtain ⟨hlt, hle⟩ := endLine_bounds (splitlinesKeep text) hsn
  exact ⟨hs0, hsn, h1, h2, hlt, hle⟩

/-- `looks_like_heading` unfolded into its three conditions on the
stripped line. -/
theorem looks_like_heading_iff (raw : List Char) :
    looks_like_heading raw = true ↔
      ((pyStrip raw).isEmpty = false ∧ (pyStrip raw).length ≤ 80 ∧
        endsPunct (pyStrip raw) = false) := by
  simp [looks_like_heading, Bool.and_eq_true, Bool.not_eq_true', and_assoc]

/-! ### Claim theorems -/

/-- `find?` over a range, converse direction: a least satisfying index is
what `find?` returns. -/
theorem range_find?_eq_some {p : Nat → Bool} {n s : Nat} (hs : s < n)
    (hp : p s = true) (hmin : ∀ m, m < s → p m = false) :
    (List.range n).find? p = some s := by
  cases hfind : (List.range n).find? p with
  | none =>
    have := List.find?_eq_none.mp hfind s (List.mem_range.mpr hs)
    simp [hp] at this
  | some m =>
    obtain ⟨hmn, hpm, hminm⟩ := range_find?_some hfind
    have h1 : ¬ m < s := fun hlt => by rw [hmin m hlt] at hpm; cases hpm
    have h2 : ¬ s < m := fun hlt => by rw [hminm s hlt] at hp; cases hp
    have : m = s := by omega
    rw [this]

/-- The index found by the blank-line skip is at or after its starting
point and is a real line index. -/
theorem nextNonBlank_bounds {lines : List (List Char)} {j0 j : Nat}
    (h : nextNonBlank lines j0 = some j) : j0 ≤ j ∧ j < lines.length := by
  obtain ⟨hjn, hp, _⟩ := range_find?_some h
  exact ⟨of_decide_eq_true (Bool.and_eq_true_iff.mp hp).1, hjn⟩

/-- C1: for every resolved key, the returned start (resp. end) offset is
the sum of the kept-terminator lengths of all lines preceding the start
(resp. end) line index, concatenating the lines of
`splitlines(keepends=True)` reproduces `full_text` exactly, and
re-inserting the slice `full_text[start:end]` at `[start, end)`
reproduces `full_text` with no character altered. -/
theorem C1_verbatim_invariant (text : List Char) (k : SKey)
    (st en s : Nat)
    (h : (find_section_spans text).get k = some (st, en, s)) :
    st = sumLen ((splitlinesKeep text).take s) ∧
    en = sumLen ((splitlinesKeep text).take
      (endLine (splitlinesKeep text) (allHeads (splitlinesKeep text)) s)) ∧
    (splitlinesKeep text).flatten = text ∧
    st ≤ en ∧ en ≤ text.length ∧
    text.take st ++ pySlice text st en ++ text.drop en = text := by
  obtain ⟨_, hsn, h1, h2, hlt, _⟩ := resolved_span h
  have hj := flatten_splitlinesKeep text
  have hsten : st ≤ en := by
    rw [h1, h2]
    exact sumLen_take_mono _ (Nat.le_of_lt hlt)
  have henlen : en ≤ text.length := by
    rw [h2]
    calc sumLen ((splitlinesKeep text).take
          (endLine (splitlinesKeep text) (allHeads (splitlinesKeep text)) s))
        ≤ sumLen (splitlinesKeep text) := sumLen_take_le_sumLen _ _
      _ = (splitlinesKeep text).flatten.length := sumLen_eq_length_flatten _
      _ = text.length := by rw [hj]
  exact ⟨h1, h2, hj, hsten, henlen, splice_eq text hsten⟩

/-- Witness for C1 at the spec's example document and the key
`todays_must_know_news`. -/
theorem C1_verbatim_invariant_witness :
    (find_section_spans exDoc).get SKey.todays = some (0, 47, 0) ∧
    (0 = sumLen ((splitlinesKeep exDoc).take 0) ∧
     47 = sumLen ((splitlinesKeep exDoc).take
       (endLine (splitlinesKeep exDoc) (allHeads (splitlinesKeep exDoc)) 0)) ∧
     (splitlinesKeep exDoc).flatten = exDoc ∧
     0 ≤ 47 ∧ 47 ≤ exDoc.length ∧
     exDoc.take 0 ++ pySlice exDoc 0 47 ++ exDoc.drop 47 = exDoc) :=
  ⟨by decide, C1_verbatim_invariant exDoc SKey.todays 0 47 0 (by decide)⟩

/-- C2: on the spec's exact 8-line example document, `find_section_spans`
resolves exactly the three keys, and slicing the input at the returned
offsets yields the three verbatim sections, the last span ending at
end-of-document. -/
theorem C2_end_to_end_example :
    (find_section_spans exDoc).todays = some (0, 47, 0) ∧
    (find_section_spans exDoc).americas = some (47, 76, 3) ∧
    (find_section_spans exDoc).greater = some (76, 119, 6) ∧
    pySlice exDoc 0 47 =
      "1. Today's Must-Know News\nSome headline here.\n\n".toList ∧
    pySlice exDoc 47 76 = "Americas\n- Fed holds rates.\n\n".toList ∧
    pySlice exDoc 76 119 =
      "Greater China\n- Chip export curbs tighten.\n".toList ∧
    exDoc.length = 119 := by
  decide

/-- C3: the heading-candidate set consists exactly of the indices of
lines that strip to non-empty text of at most 80 characters not ending in
sentence punctuation, and every resolved section's end line index is the
smallest heading-candidate index strictly greater than its start index,
or the total line count when none exists. -/
theorem C3_span_termination (text : List Char) (k : SKey) (st en s : Nat)
    (h : (find_section_spans text).get k = some (st, en, s)) :
    (∀ i, i ∈ allHeads (splitlinesKeep text) ↔
      (i < (splitlinesKeep text).length ∧
       (pyStrip ((splitlinesKeep text).getD i [])).isEmpty = false ∧
       (pyStrip ((splitlinesKeep text).getD i [])).length ≤ 80 ∧
       endsPunct (pyStrip ((splitlinesKeep text).getD i [])) = false)) ∧
    en = sumLen ((splitlinesKeep text).take
      (endLine (splitlinesKeep text) (allHeads (splitlinesKeep text)) s)) ∧
    ((endLine (splitlinesKeep text) (allHeads (splitlinesKeep text)) s ∈
        allHeads (splitlinesKeep text) ∧
      s < endLine (splitlinesKeep text) (allHeads (splitlinesKeep text)) s ∧
      ∀ h' ∈ allHeads (splitlinesKeep text), s < h' →
        endLine (splitlinesKeep text) (allHeads (splitlinesKeep text)) s ≤ h') ∨
     (endLine (splitlinesKeep text) (allHeads (splitlinesKeep text)) s =
        (splitlinesKeep text).length ∧
      ∀ h' ∈ allHeads (splitlinesKeep text), ¬ s < h')) := by
  obtain ⟨_, _, _, h2, _, _⟩ := resolved_span h
  refine ⟨?_, h2, endLine_spec (splitlinesKeep text) s⟩
  intro i
  simp only [mem_allHeads, looks_like_heading_iff]

/-- Witness for C3 at the spec's example document and the key
`americas`. -/
theorem C3_span_termination_witness :
    (find_section_spans exDoc).get SKey.americas = some (47, 76, 3) ∧
    ((∀ i, i ∈ allHeads (splitlinesKeep exDoc) ↔
      (i < (splitlinesKeep exDoc).length ∧
       (pyStrip ((splitlinesKeep exDoc).getD i [])).isEmpty = false ∧
       (pyStrip ((splitlinesKeep exDoc).getD i [])).length ≤ 80 ∧
       endsPunct (pyStrip ((splitlinesKeep exDoc).getD i [])) = false)) ∧
    76 = sumLen ((splitlinesKeep exDoc).take
      (endLine (splitlinesKeep exDoc) (allHeads (splitlinesKeep exDoc)) 3)) ∧
    ((endLine (splitlinesKeep exDoc) (allHeads (splitlinesKeep exDoc)) 3 ∈
        allHeads (splitlinesKeep exDoc) ∧
      3 < endLine (splitlinesKeep exDoc) (allHeads (splitlinesKeep exDoc)) 3 ∧
      ∀ h' ∈ allHeads (splitlinesKeep exDoc), 3 < h' →
        endLine (splitlinesKeep exDoc) (allHeads (splitlinesKeep exDoc)) 3 ≤ h') ∨
     (endLine (splitlinesKeep exDoc) (allHeads (splitlinesKeep exDoc)) 3 =
        (splitlinesKeep exDoc).length ∧
      ∀ h' ∈ allHeads (splitlinesKeep exDoc), ¬ 3 < h'))) :=
  ⟨by decide, C3_span_termination exDoc SKey.americas 47 76 3 (by decide)⟩

/-- A document in which the same heading text appears twice. -/
def dupDoc : List Char :=
  "Americas\nx\nAmericas\n".toList

/-- C4: when two line indices `i < j` both qualify as a match for the
same target key (single-line pattern or two-line alias form, in the one
left-to-right pass), the resolved start line index is at most `i` and is
never `j`; it is exactly `i` when no earlier line qualifies; and once a
key is present in `target_idx` no later scan step ever overwrites it. -/
theorem C4_first_match_wins (text : List Char) (k : SKey) (i j : Nat)
    (hij : i < j) (hjn : j < (splitlinesKeep text).length)
    (hqi : qualifies (splitlinesKeep text) k i = true)
    (_hqj : qualifies (splitlinesKeep text) k j = true) :
    (∃ m, (targetIdx (splitlinesKeep text)).get k = some m ∧ m ≤ i) ∧
    (targetIdx (splitlinesKeep text)).get k ≠ some j ∧
    ((∀ m, m < i → qualifies (splitlinesKeep text) k m = false) →
      (targetIdx (splitlinesKeep text)).get k = some i) ∧
    (∀ (t : TargetIdx) (v : Nat) (q : Nat), t.get k = some v →
      (stepTargets (splitlinesKeep text) t q).get k = some v) := by
  cases hfind : (List.range (splitlinesKeep text).length).find?
      (fun m => qualifies (splitlinesKeep text) k m) with
  | none =>
    have := List.find?_eq_none.mp hfind i
      (List.mem_range.mpr (Nat.lt_trans hij hjn))
    simp [hqi] at this
  | some m =>
    obtain ⟨hmn, hqm, hmin⟩ := range_find?_some hfind
    have hmi : m ≤ i := by
      by_contra hlt
      rw [hmin i (Nat.lt_of_not_le hlt)] at hqi
      cases hqi
    have hget : (targetIdx (splitlinesKeep text)).get k = some m := by
      rw [targetIdx_get]; exact hfind
    refine ⟨⟨m, hget, hmi⟩, ?_, ?_, ?_⟩
    · rw [hget]
      intro heq
      have : m = j := by
        have := Option.some.injEq m j ▸ heq
        exact Option.some.inj heq
      omega
    · intro hfirst
      have : ¬ m < i := fun hlt => by rw [hfirst m hlt] at hqm; cases hqm
      have hmeq : m = i := by omega
      rw [hget, hmeq]
    · intro t v q hv
      rw [stepTargets_get, hv]
      simp

/-- Witness for C4: the heading "Americas" appears at lines 0 and 2 of
`dupDoc`; the resolved index is 0, never 2. -/
theorem C4_first_match_wins_witness :
    ((0:Nat) < 2 ∧ 2 < (splitlinesKeep dupDoc).length ∧
     qualifies (splitlinesKeep dupDoc) SKey.americas 0 = true ∧
     qualifies (splitlinesKeep dupDoc) SKey.americas 2 = true) ∧
    ((∃ m, (targetIdx (splitlinesKeep dupDoc)).get SKey.americas = some m ∧
        m ≤ 0) ∧
     (targetIdx (splitlinesKeep dupDoc)).get SKey.americas ≠ some 2 ∧
     ((∀ m, m < 0 →
        qualifies (splitlinesKeep dupDoc) SKey.americas m = false) →
       (targetIdx (splitlinesKeep dupDoc)).get SKey.americas = some 0) ∧
     (∀ (t : TargetIdx) (v : Nat) (q : Nat), t.get SKey.americas = some v →
       (stepTargets (splitlinesKeep dupDoc) t q).get SKey.americas = some v)) :=
  ⟨⟨by decide, by decide, by decide, by decide⟩,
   C4_first_match_wins dupDoc SKey.americas 0 2 (by decide) (by decide)
     (by decide) (by decide)⟩

/-- A document driving the United-States two-line alias path. -/
def usDoc : List Char :=
  "US\n\nAmericas\n".toList

/-- A document driving the China two-line alias path. -/
def cnDoc : List Char :=
  "CN\nGreater China\n".toList

/-- C5: a line whose normalized form is a United-States alias, followed
(after zero or more blank lines) by a line matching the Americas pattern,
with no earlier qualifying Americas match, resolves the Americas start to
the alias line's index, strictly before the matching heading line;
symmetrically for the China alias set and the Greater China pattern. -/
theorem C5_alias_precedence (text : List Char) :
    (∀ i j,
      usAliases.contains (normalize ((splitlinesKeep text).getD i [])) = true →
      nextNonBlank (splitlinesKeep text) (i + 1) = some j →
      hAmer (normalize ((splitlinesKeep text).getD j [])) = true →
      i < (splitlinesKeep text).length →
      (∀ m, m < i → qualifies (splitlinesKeep text) SKey.americas m = false) →
      ((targetIdx (splitlinesKeep text)).get SKey.americas = some i ∧
        i < j)) ∧
    (∀ i j,
      cnAliases.contains (normalize ((splitlinesKeep text).getD i [])) = true →
      nextNonBlank (splitlinesKeep text) (i + 1) = some j →
      hGC (normalize ((splitlinesKeep text).getD j [])) = true →
      i < (splitlinesKeep text).length →
      (∀ m, m < i → qualifies (splitlinesKeep text) SKey.greater m = false) →
      ((targetIdx (splitlinesKeep text)).get SKey.greater = some i ∧
        i < j)) := by
  constructor
  · intro i j hUS hnb hAm hin hfirst
    have hq : qualifies (splitlinesKeep text) SKey.americas i = true := by
      simp only [qualifies, hnb]
      rw [hUS, hAm]
      simp
    have hij : i < j := Nat.lt_of_succ_le (nextNonBlank_bounds hnb).1
    refine ⟨?_, hij⟩
    rw [targetIdx_get]
    exact range_find?_eq_some hin hq hfirst
  · intro i j hCN hnb hGc hin hfirst
    have hq : qualifies (splitlinesKeep text) SKey.greater i = true := by
      simp only [qualifies, hnb]
      rw [hCN, hGc]
      simp
    have hij : i < j := Nat.lt_of_succ_le (nextNonBlank_bounds hnb).1
    refine ⟨?_, hij⟩
    rw [targetIdx_get]
    exact range_find?_eq_some hin hq hfirst

/-- Witness for C5: both alias forms at concrete documents, including an
intervening blank line for the US case. -/
theorem C5_alias_precedence_witness :
    ((targetIdx (splitlinesKeep usDoc)).get SKey.americas = some 0 ∧
      (0:Nat) < 2) ∧
    ((targetIdx (splitlinesKeep cnDoc)).get SKey.greater = some 0 ∧
      (0:Nat) < 1) :=
  ⟨(C5_alias_precedence usDoc).1 0 2 (by decide) (by decide) (by decide)
      (by decide) (fun m hm => absurd hm (Nat.not_lt_zero m)),
   (C5_alias_precedence cnDoc).2 0 1 (by decide) (by decide) (by decide)
      (by decide) (fun m hm => absurd hm (Nat.not_lt_zero m))⟩

/-- C9: `find_section_spans` is a total function; a key is absent from
the result exactly when no line of the document qualifies for it, so the
result is the empty mapping precisely when no target heading matches
anywhere, and a partially matching document yields exactly the resolved
keys. -/
theorem C9_absent_iff_no_match (text : List Char) (k : SKey) :
    (find_section_spans text).get k = none ↔
      ∀ i, qualifies (splitlinesKeep text) k i = false := by
  rw [find_section_spans_get, Option.map_eq_none', targetIdx_get]
  constructor
  · intro hnone i
    by_cases hin : i < (splitlinesKeep text).length
    · have := List.find?_eq_none.mp hnone i (List.mem_range.mpr hin)
      simpa using this
    · exact qualifies_oob _ k (Nat.le_of_not_lt hin)
  · intro hall
    apply List.find?_eq_none.mpr
    intro x _
    simp [hall x]

/-- C10: a line whose stripped text ends in sentence punctuation is never
a heading candidate — even when it is recorded as a section's heading
start through the alias path — and hence never serves as the end
boundary line of any span. -/
theorem C10_punct_never_boundary (text : List Char) (i : Nat)
    (hin : i < (splitlinesKeep text).length)
    (hp : endsPunct (pyStrip ((splitlinesKeep text).getD i [])) = true) :
    i ∉ allHeads (splitlinesKeep text) ∧
    ∀ s, endLine (splitlinesKeep text) (allHeads (splitlinesKeep text)) s ≠ i := by
  have hnot : i ∉ allHeads (splitlinesKeep text) := by
    rw [mem_allHeads]
    rintro ⟨-, hl⟩
    rw [looks_like_heading_iff] at hl
    rw [hl.2.2] at hp
    cases hp
  refine ⟨hnot, ?_⟩
  intro s
  rw [endLine]
  cases hfind : (allHeads (splitlinesKeep text)).find?
      (fun h => decide (s < h)) with
  | none =>
    simp only [Option.getD_none]
    omega
  | some e =>
    obtain ⟨-, hmem, -⟩ :=
      sorted_find?_least (allHeads_sorted (splitlinesKeep text)) hfind
    simp only [Option.getD_some]
    intro heq
    rw [heq] at hmem
    exact hnot hmem

/-- A document with all three headings as plain candidate lines in
canonical order. -/
def ordDoc : List Char :=
  "Today's Must-Know News\nAmericas\nGreater China\n".toList

/-- When the later of two resolved heading lines is itself a heading
candidate, the earlier section's span ends at or before it, so the two
character ranges are disjoint. -/
theorem span_pair_disjoint (text : List Char) {s1 s2 : Nat} (hlt : s1 < s2)
    (hmem : s2 ∈ allHeads (splitlinesKeep text)) :
    spanDisjoint
      (span_from (splitlinesKeep text) (allHeads (splitlinesKeep text)) s1)
      (span_from (splitlinesKeep text) (allHeads (splitlinesKeep text)) s2) := by
  left
  show sumLen ((splitlinesKeep text).take
      (endLine (splitlinesKeep text) (allHeads (splitlinesKeep text)) s1)) ≤
    sumLen ((splitlinesKeep text).take s2)
  exact sumLen_take_mono _ (endLine_le_of_mem (splitlinesKeep text) hmem hlt)

/-- C6 counterexample: in `aliasDoc` the americas heading start (the
alias line "U.S.", line 1) follows the todays heading (line 0), so the
resolved heading line indices respect the canonical order; yet the two
returned ranges `[0, 28)` and `[23, 28)` overlap, because the alias line
ends in "." and is no heading candidate.  The claim that canonical order
alone forces pairwise disjointness is therefore false. -/
theorem C6_counterexample :
    (find_section_spans aliasDoc).todays = some (0, 28, 0) ∧
    (find_section_spans aliasDoc).americas = some (23, 28, 1) ∧
    (find_section_spans aliasDoc).greater = none ∧
    inOrder ((targetIdx (splitlinesKeep aliasDoc)).get SKey.todays)
      ((targetIdx (splitlinesKeep aliasDoc)).get SKey.americas) = true ∧
    inOrder ((targetIdx (splitlinesKeep aliasDoc)).get SKey.todays)
      ((targetIdx (splitlinesKeep aliasDoc)).get SKey.greater) = true ∧
    inOrder ((targetIdx (splitlinesKeep aliasDoc)).get SKey.americas)
      ((targetIdx (splitlinesKeep aliasDoc)).get SKey.greater) = true ∧
    ¬ spanDisjoint (0, 28, 0) (23, 28, 1) := by
  decide

/-- C6 amended: when the resolved heading line indices respect the
canonical order AND every resolved heading start line is itself a heading
candidate, the returned half-open ranges are pairwise disjoint.  (The
counterexample forces the extra candidate condition: an alias heading
line ending in sentence punctuation is not a candidate and lets the
previous span run past it.) -/
theorem C6_amended_disjoint (text : List Char)
    (hordTA : inOrder ((targetIdx (splitlinesKeep text)).get SKey.todays)
      ((targetIdx (splitlinesKeep text)).get SKey.americas) = true)
    (hordTG : inOrder ((targetIdx (splitlinesKeep text)).get SKey.todays)
      ((targetIdx (splitlinesKeep text)).get SKey.greater) = true)
    (hordAG : inOrder ((targetIdx (splitlinesKeep text)).get SKey.americas)
      ((targetIdx (splitlinesKeep text)).get SKey.greater) = true)
    (_hcT : Option.all (fun s => (allHeads (splitlinesKeep text)).contains s)
      ((targetIdx (splitlinesKeep text)).get SKey.todays) = true)
    (hcA : Option.all (fun s => (allHeads (splitlinesKeep text)).contains s)
      ((targetIdx (splitlinesKeep text)).get SKey.americas) = true)
    (hcG : Option.all (fun s => (allHeads (splitlinesKeep text)).contains s)
      ((targetIdx (splitlinesKeep text)).get SKey.greater) = true) :
    (∀ u v, (find_section_spans text).get SKey.todays = some u →
      (find_section_spans text).get SKey.americas = some v →
      spanDisjoint u v) ∧
    (∀ u v, (find_section_spans text).get SKey.todays = some u →
      (find_section_spans text).get SKey.greater = some v →
      spanDisjoint u v) ∧
    (∀ u v, (find_section_spans text).get SKey.americas = some u →
      (find_section_spans text).get SKey.greater = some v →
      spanDisjoint u v) := by
  have main : ∀ (k1 k2 : SKey),
      inOrder ((targetIdx (splitlinesKeep text)).get k1)
        ((targetIdx (splitlinesKeep text)).get k2) = true →
      Option.all (fun s => (allHeads (splitlinesKeep text)).contains s)
        ((targetIdx (splitlinesKeep text)).get k2) = true →
      ∀ u v, (find_section_spans text).get k1 = some u →
        (find_section_spans text).get k2 = some v → spanDisjoint u v := by
    intro k1 k2 hord hcand u v hu hv
    rw [find_section_spans_get] at hu hv
    obtain ⟨s1, hs1, hu⟩ := Option.map_eq_some'.mp hu
    obtain ⟨s2, hs2, hv⟩ := Option.map_eq_some'.mp hv
    rw [hs1, hs2] at hord
    have hlt : s1 < s2 := by
      simpa [inOrder] using hord
    have hmem : s2 ∈ allHeads (splitlinesKeep text) := by
      rw [hs2] at hcand
      simpa [Option.all] using hcand
    rw [← hu, ← hv]
    exact span_pair_disjoint text hlt hmem
  exact ⟨main SKey.todays SKey.americas hordTA hcA,
         main SKey.todays SKey.greater hordTG hcG,
         main SKey.americas SKey.greater hordAG hcG⟩

/-- Witness for the amended C6 at `ordDoc`, whose three heading lines are
all candidates and in canonical order. -/
theorem C6_amended_disjoint_witness :
    (∀ u v, (find_section_spans ordDoc).get SKey.todays = some u →
      (find_section_spans ordDoc).get SKey.americas = some v →
      spanDisjoint u v) ∧
    (∀ u v, (find_section_spans ordDoc).get SKey.todays = some u →
      (find_section_spans ordDoc).get SKey.greater = some v →
      spanDisjoint u v) ∧
    (∀ u v, (find_section_spans ordDoc).get SKey.americas = some u →
      (find_section_spans ordDoc).get SKey.greater = some v →
      spanDisjoint u v) :=
  C6_amended_disjoint ordDoc (by decide) (by decide) (by decide)
    (by decide) (by decide) (by decide)

/-- C7 counterexample: the value stored for a resolved key is a triple
`(start_abs, end_abs, heading_line_index)`, not a pair of exactly two
offsets: the two documents below produce the same two offsets `(4, 13)`
for americas yet different values, distinguished only by the third
component (the heading line index), so the returned value carries more
than two components. -/
theorem C7_counterexample :
    (find_section_spans "abc\nAmericas\n".toList).americas =
      some (4, 13, 1) ∧
    (find_section_spans "a\nb\nAmericas\n".toList).americas =
      some (4, 13, 2) ∧
    ((4, 13, 1) : Nat × Nat × Nat) ≠ ((4, 13, 2) : Nat × Nat × Nat) := by
  decide

/-- C7 amended: `find_section_spans` returns a mapping whose keys are
drawn from the three section keys and whose value for each present key is
a triple: two character offsets `start ≤ end ≤ len(full_text)` into
`full_text`, followed by the resolved heading start line index. -/
theorem C7_amended_offsets (text : List Char) (k : SKey)
    (v : Nat × Nat × Nat)
    (h : (find_section_spans text).get k = some v) :
    v.1 ≤ v.2.1 ∧ v.2.1 ≤ text.length ∧
    (targetIdx (splitlinesKeep text)).get k = some v.2.2 ∧
    v.1 = sumLen ((splitlinesKeep text).take v.2.2) := by
  obtain ⟨st, en, s⟩ := v
  obtain ⟨hget, -, h1, h2, hlt, -⟩ := resolved_span h
  have hj := flatten_splitlinesKeep text
  refine ⟨?_, ?_, hget, h1⟩
  · rw [h1, h2]
    exact sumLen_take_mono _ (Nat.le_of_lt hlt)
  · rw [h2]
    calc sumLen ((splitlinesKeep text).take
          (endLine (splitlinesKeep text) (allHeads (splitlinesKeep text)) s))
        ≤ sumLen (splitlinesKeep text) := sumLen_take_le_sumLen _ _
      _ = (splitlinesKeep text).flatten.length := sumLen_eq_length_flatten _
      _ = text.length := by rw [hj]

/-- Witness for the amended C7 at the example document and the key
`greater_china`. -/
theorem C7_amended_offsets_witness :
    (find_section_spans exDoc).get SKey.greater = some (76, 119, 6) ∧
    ((76:Nat) ≤ 119 ∧ (119:Nat) ≤ exDoc.length ∧
     (targetIdx (splitlinesKeep exDoc)).get SKey.greater = some 6 ∧
     (76:Nat) = sumLen ((splitlinesKeep exDoc).take 6)) :=
  ⟨by decide, C7_amended_offsets exDoc SKey.greater (76, 119, 6) (by decide)⟩

/-- Witness for C10: line 1 of `aliasDoc` is "U.S.", which is recorded as
the americas heading start yet is no heading candidate and bounds no
span. -/
theorem C10_punct_never_boundary_witness :
    (1 < (splitlinesKeep aliasDoc).length ∧
     endsPunct (pyStrip ((splitlinesKeep aliasDoc).getD 1 [])) = true ∧
     (targetIdx (splitlinesKeep aliasDoc)).get SKey.americas = some 1) ∧
    (1 ∉ allHeads (splitlinesKeep aliasDoc) ∧
     ∀ s, endLine (splitlinesKeep aliasDoc)
       (allHeads (splitlinesKeep aliasDoc)) s ≠ 1) :=
  ⟨⟨by decide, by decide, by decide⟩,
   C10_punct_never_boundary aliasDoc 1 (by decide) (by decide)⟩

/-! ### C8: enumeration tolerance and anchoring of the heading patterns -/

/-- Whitespace characters are not digits (`\s` and `\d` are disjoint). -/
theorem isPySpace_isDigit_false {ch : Char} (h : isPySpace ch = true) :
    ch.isDigit = false := by
  simp only [isPySpace, Bool.or_eq_true, Bool.and_eq_true, decide_eq_true_eq] at h
  rcases h with ((((((((((((((((((h|h)|h)|h)|h)|h)|h)|h)|h)|h)|h)|h)|h)|⟨h1,h2⟩)|h)|h)|h)|h)|h)
  all_goals first
    | (subst h; decide)
    | (simp only [Char.isDigit, Bool.and_eq_false_iff, decide_eq_false_iff_not]
       right
       intro hle
       rw [UInt32.le_def, BitVec.le_def] at hle
       have he1 : ch.toNat = ch.val.toBitVec.toNat := rfl
       have he2 : ((57 : UInt32)).toBitVec.toNat = 57 := by decide
       omega)

/-- A successful literal match decomposes the input. -/
theorem dropLit_eq_some {lit : List Char} : ∀ {s r : List Char},
    dropLit lit s = some r → s = lit ++ r := by
  induction lit with
  | nil => intro s r h; simp [dropLit] at h; simp [h]
  | cons c l ih =>
    intro s r h
    cases s with
    | nil => simp [dropLit] at h
    | cons d s' =>
      simp only [dropLit] at h
      by_cases hcd : c = d
      · subst hcd
        rw [if_pos rfl] at h
        have := ih h
        simp [this]
      · rw [if_neg hcd] at h; cases h

/-- The rest after a literal match is a suffix of the input. -/
theorem dropLit_suffix {lit s r : List Char} (h : dropLit lit s = some r) :
    r <:+ s :=
  ⟨lit, (dropLit_eq_some h).symm⟩

/-- The rest after `\s+` is a suffix of the input. -/
theorem reqSpaces_suffix {s r : List Char} (h : reqSpaces s = some r) :
    r <:+ s := by
  cases s with
  | nil => simp [reqSpaces] at h
  | cons c rest =>
    simp only [reqSpaces] at h
    cases hc : isPySpace c with
    | false => rw [hc] at h; simp at h
    | true =>
      rw [hc] at h
      simp only [if_true] at h
      cases h
      exact (List.dropWhile_suffix _).trans (List.suffix_cons c rest)

/-- The rest after an optional character is a suffix of the input. -/
theorem skipOptChar_suffix (c : Char) (s : List Char) :
    skipOptChar c s <:+ s := by
  cases s with
  | nil => exact List.suffix_refl _
  | cons x r =>
    simp only [skipOptChar]
    by_cases hx : x = c
    · rw [if_pos hx]; exact List.suffix_cons x r
    · rw [if_neg hx]

/-- The rest after the enumeration group is a suffix of the input. -/
theorem matchEnum_suffix {s r : List Char} (h : matchEnum s = some r) :
    r <:+ s := by
  unfold matchEnum at h
  cases hemp : (s.takeWhile Char.isDigit).isEmpty with
  | true => rw [hemp] at h; simp at h
  | false =>
    rw [hemp] at h
    simp only [Bool.false_eq_true, if_false] at h
    cases hm : (s.dropWhile Char.isDigit).dropWhile isPySpace with
    | nil => rw [hm] at h; simp at h
    | cons c r0 =>
      rw [hm] at h
      cases hcc : (c = '.' || c = ')') with
      | false => simp [hcc] at h
      | true =>
        simp only [hcc, if_true, Option.some.injEq] at h
        have h1 : (c :: r0) <:+ s := by
          rw [← hm]
          exact (List.dropWhile_suffix _).trans (List.dropWhile_suffix _)
        have h2 : r <:+ c :: r0 := by
          rw [← h]
          exact (List.dropWhile_suffix _).trans (List.suffix_cons c r0)
        exact h2.trans h1


/-- A line matching `americas\s*$` is the literal followed by
whitespace. -/
theorem coreAmer_struct {s : List Char} (h : coreAmer s = true) :
    ∃ pre post, s = pre ++ "americas".toList ++ post ∧
      post.all isPySpace = true := by
  rw [coreAmer] at h
  cases hd : dropLit ("americas".toList) s with
  | none => rw [hd] at h; simp [tailSpaces] at h
  | some r =>
    rw [hd] at h
    exact ⟨[], r, by simpa using dropLit_eq_some hd,
      by simpa [tailSpaces] using h⟩

/-- A line matching `greater\s+china\s*$` ends in the literal "china"
followed only by whitespace. -/
theorem coreGC_struct {s : List Char} (h : coreGC s = true) :
    ∃ pre post, s = pre ++ "china".toList ++ post ∧
      post.all isPySpace = true := by
  rw [coreGC] at h
  cases h1 : dropLit ("greater".toList) s with
  | none => rw [h1, Option.none_bind, Option.none_bind] at h; simp [tailSpaces] at h
  | some r1 =>
    rw [h1, Option.some_bind] at h
    cases h2 : reqSpaces r1 with
    | none => rw [h2, Option.none_bind] at h; simp [tailSpaces] at h
    | some r2 =>
      rw [h2, Option.some_bind] at h
      cases h3 : dropLit ("china".toList) r2 with
      | none => rw [h3] at h; simp [tailSpaces] at h
      | some r3 =>
        rw [h3] at h
        have hall : r3.all isPySpace = true := by simpa [tailSpaces] using h
        obtain ⟨pre, hpre⟩ := (reqSpaces_suffix h2).trans (dropLit_suffix h1)
        refine ⟨pre, r3, ?_, hall⟩
        rw [← hpre, dropLit_eq_some h3, List.append_assoc]

/-- A line matching `today'?s\s+must-?know\s+news\s*$` ends in the
literal "news" followed only by whitespace. -/
theorem coreToday_struct {s : List Char} (h : coreToday s = true) :
    ∃ pre post, s = pre ++ "news".toList ++ post ∧
      post.all isPySpace = true := by
  rw [coreToday] at h
  cases h1 : dropLit ("today".toList) s with
  | none => rw [h1] at h; simp [tailSpaces] at h
  | some a1 =>
    rw [h1, Option.map_some'] at h
    cases h2 : dropLit ("s".toList) (skipOptChar '\'' a1) with
    | none => rw [Option.some_bind, h2] at h; simp [tailSpaces] at h
    | some a2 =>
      rw [Option.some_bind, h2, Option.some_bind] at h
      cases h3 : reqSpaces a2 with
      | none => rw [h3] at h; simp [tailSpaces] at h
      | some a3 =>
        rw [h3, Option.some_bind] at h
        cases h4 : dropLit ("must".toList) a3 with
        | none => rw [h4] at h; simp [tailSpaces] at h
        | some a4 =>
          rw [h4, Option.map_some'] at h
          cases h5 : dropLit ("know".toList) (skipOptChar '-' a4) with
          | none => rw [Option.some_bind, h5] at h; simp [tailSpaces] at h
          | some a5 =>
            rw [Option.some_bind, h5, Option.some_bind] at h
            cases h6 : reqSpaces a5 with
            | none => rw [h6] at h; simp [tailSpaces] at h
            | some a6 =>
              rw [h6, Option.some_bind] at h
              cases h7 : dropLit ("news".toList) a6 with
              | none => rw [h7] at h; simp [tailSpaces] at h
              | some a7 =>
                rw [h7] at h
                have hall : a7.all isPySpace = true := by
                  simpa [tailSpaces] using h
                have hsuf : a6 <:+ s :=
                  (reqSpaces_suffix h6).trans <|
                    (dropLit_suffix h5).trans <|
                      (skipOptChar_suffix '-' a4).trans <|
                        (dropLit_suffix h4).trans <|
                          (reqSpaces_suffix h3).trans <|
                            (dropLit_suffix h2).trans <|
                              (skipOptChar_suffix '\'' a1).trans
                                (dropLit_suffix h1)
                obtain ⟨pre, hpre⟩ := hsuf
                exact ⟨pre, a7,
                  by rw [← hpre, dropLit_eq_some h7, List.append_assoc], hall⟩


/-- `dropWhile` over an all-satisfying prefix skips it entirely. -/
theorem dropWhile_append_all {p : Char → Bool} {l1 l2 : List Char}
    (h : l1.all p = true) : (l1 ++ l2).dropWhile p = l2.dropWhile p := by
  induction l1 with
  | nil => rfl
  | cons a l ih => simp_all [List.dropWhile_cons]

/-- `dropWhile` stops at a head that fails the predicate. -/
theorem dropWhile_cons_of_neg {p : Char → Bool} {c : Char} {l : List Char}
    (h : p c = false) : (c :: l).dropWhile p = c :: l := by
  simp [List.dropWhile_cons, h]

/-- A line matching the americas body has no leading whitespace. -/
theorem coreAmer_head {x : List Char} (h : coreAmer x = true) :
    x.dropWhile isPySpace = x := by
  rw [coreAmer] at h
  cases hd : dropLit ("americas".toList) x with
  | none => rw [hd] at h; simp [tailSpaces] at h
  | some r =>
    rw [dropLit_eq_some hd]
    rw [show ("americas".toList ++ r) = 'a' :: ("mericas".toList ++ r) from rfl]
    exact dropWhile_cons_of_neg (by decide)

/-- A line matching the greater-china body has no leading whitespace. -/
theorem coreGC_head {x : List Char} (h : coreGC x = true) :
    x.dropWhile isPySpace = x := by
  rw [coreGC] at h
  cases hd : dropLit ("greater".toList) x with
  | none => rw [hd, Option.none_bind, Option.none_bind] at h; simp [tailSpaces] at h
  | some r =>
    rw [dropLit_eq_some hd]
    rw [show ("greater".toList ++ r) = 'g' :: ("reater".toList ++ r) from rfl]
    exact dropWhile_cons_of_neg (by decide)

/-- A line matching the todays body has no leading whitespace. -/
theorem coreToday_head {x : List Char} (h : coreToday x = true) :
    x.dropWhile isPySpace = x := by
  rw [coreToday] at h
  cases hd : dropLit ("today".toList) x with
  | none => rw [hd] at h; simp [tailSpaces] at h
  | some r =>
    rw [dropLit_eq_some hd]
    rw [show ("today".toList ++ r) = 't' :: ("oday".toList ++ r) from rfl]
    exact dropWhile_cons_of_neg (by decide)

/-- The enumeration group `\d+\s*[.)]\s*` consumes exactly an
enumeration-shaped prefix. -/
theorem matchEnum_build {ds w1 w2 x : List Char} {c : Char}
    (hds : ds ≠ []) (hdsd : ds.all Char.isDigit = true)
    (hw1 : w1.all isPySpace = true) (hc : c = '.' ∨ c = ')')
    (hw2 : w2.all isPySpace = true)
    (hx : x.dropWhile isPySpace = x) :
    matchEnum (ds ++ w1 ++ c :: (w2 ++ x)) = some x := by
  have hcsp : isPySpace c = false := by rcases hc with rfl | rfl <;> decide
  have hcdg : Char.isDigit c = false := by rcases hc with rfl | rfl <;> decide
  have hcor : (c = '.' || c = ')') = true := by
    rcases hc with rfl | rfl <;> simp
  obtain ⟨d, ds', rfl⟩ : ∃ d ds', ds = d :: ds' := by
    cases ds with
    | nil => exact absurd rfl hds
    | cons d ds' => exact ⟨d, ds', rfl⟩
  rw [List.all_cons, Bool.and_eq_true] at hdsd
  obtain ⟨hd, hds'⟩ := hdsd
  have hshape : (d :: ds') ++ w1 ++ c :: (w2 ++ x) =
      d :: (ds' ++ (w1 ++ c :: (w2 ++ x))) := by simp
  have e2 : (w1 ++ c :: (w2 ++ x)).dropWhile Char.isDigit =
      w1 ++ c :: (w2 ++ x) := by
    cases w1 with
    | nil => rw [List.nil_append]; exact dropWhile_cons_of_neg hcdg
    | cons hw w1' =>
      rw [List.all_cons, Bool.and_eq_true] at hw1
      rw [List.cons_append]
      exact dropWhile_cons_of_neg (isPySpace_isDigit_false hw1.1)
  have hdw1 : (d :: (ds' ++ (w1 ++ c :: (w2 ++ x)))).dropWhile Char.isDigit =
      w1 ++ c :: (w2 ++ x) := by
    rw [List.dropWhile_cons, hd]
    simp only [if_true]
    rw [dropWhile_append_all hds', e2]
  have e3 : (w1 ++ c :: (w2 ++ x)).dropWhile isPySpace = c :: (w2 ++ x) := by
    rw [dropWhile_append_all hw1]
    exact dropWhile_cons_of_neg hcsp
  have e4 : (w2 ++ x).dropWhile isPySpace = x := by
    rw [dropWhile_append_all hw2, hx]
  have htw : ((d :: (ds' ++ (w1 ++ c :: (w2 ++ x)))).takeWhile
      Char.isDigit).isEmpty = false := by
    rw [List.takeWhile_cons, hd]
    simp
  rw [hshape, matchEnum, htw]
  simp only [Bool.false_eq_true, if_false]
  rw [hdw1, e3]
  simp only [hcor, if_true, e4]

/-- An enumeration-shaped prefix in front of a matching heading body
still matches the full pattern. -/
theorem withEnum_build {core : List Char → Bool} {ds w1 w2 x : List Char}
    {c : Char}
    (hds : ds ≠ []) (hdsd : ds.all Char.isDigit = true)
    (hw1 : w1.all isPySpace = true) (hc : c = '.' ∨ c = ')')
    (hw2 : w2.all isPySpace = true)
    (hx : x.dropWhile isPySpace = x) (hcore : core x = true) :
    withEnum core (ds ++ w1 ++ c :: (w2 ++ x)) = true := by
  rw [withEnum, matchEnum_build hds hdsd hw1 hc hw2 hx]
  simp [hcore]

/-- Anchoring: a full-pattern match leaves only whitespace after the
final literal of the heading body. -/
theorem withEnum_anchored {core : List Char → Bool} {lit : List Char}
    (hstruct : ∀ {x : List Char}, core x = true →
      ∃ pre post, x = pre ++ lit ++ post ∧ post.all isPySpace = true)
    {s : List Char} (h : withEnum core s = true) :
    ∃ pre post, s = pre ++ lit ++ post ∧ post.all isPySpace = true := by
  rw [withEnum] at h
  rcases Bool.or_eq_true_iff.mp h with h | h
  · exact hstruct h
  · cases hm : matchEnum s with
    | none => rw [hm] at h; cases h
    | some r =>
      rw [hm] at h
      obtain ⟨pre, post, hp, ha⟩ := hstruct h
      obtain ⟨pre0, hpre0⟩ := matchEnum_suffix hm
      exact ⟨pre0 ++ pre, post, by rw [← hpre0, hp]; simp [List.append_assoc], ha⟩


/-- C8: for each of the three heading patterns, a line consisting of an
enumeration prefix (one or more digits, optional whitespace, `.` or `)`,
optional whitespace) followed by text matching the bare heading body
still matches the full pattern; and each pattern stays anchored to the
entire line: whenever it matches, everything after the final word of the
heading is whitespace, so a match never succeeds with extra
non-whitespace text after the heading. -/
theorem C8_enum_tolerance_anchoring (ds w1 w2 x : List Char) (c : Char)
    (hds : ds ≠ []) (hdsd : ds.all Char.isDigit = true)
    (hw1 : w1.all isPySpace = true) (hc : c = '.' ∨ c = ')')
    (hw2 : w2.all isPySpace = true) :
    ((coreToday x = true → hToday (ds ++ w1 ++ c :: (w2 ++ x)) = true) ∧
     (coreAmer x = true → hAmer (ds ++ w1 ++ c :: (w2 ++ x)) = true) ∧
     (coreGC x = true → hGC (ds ++ w1 ++ c :: (w2 ++ x)) = true)) ∧
    ((∀ s, hToday s = true → ∃ pre post,
        s = pre ++ "news".toList ++ post ∧ post.all isPySpace = true) ∧
     (∀ s, hAmer s = true → ∃ pre post,
        s = pre ++ "americas".toList ++ post ∧ post.all isPySpace = true) ∧
     (∀ s, hGC s = true → ∃ pre post,
        s = pre ++ "china".toList ++ post ∧ post.all isPySpace = true)) := by
  refine ⟨⟨?_, ?_, ?_⟩, ⟨?_, ?_, ?_⟩⟩
  · intro hcore
    exact withEnum_build hds hdsd hw1 hc hw2 (coreToday_head hcore) hcore
  · intro hcore
    exact withEnum_build hds hdsd hw1 hc hw2 (coreAmer_head hcore) hcore
  · intro hcore
    exact withEnum_build hds hdsd hw1 hc hw2 (coreGC_head hcore) hcore
  · intro s hs
    exact withEnum_anchored (fun hx => coreToday_struct hx) hs
  · intro s hs
    exact withEnum_anchored (fun hx => coreAmer_struct hx) hs
  · intro s hs
    exact withEnum_anchored (fun hx => coreGC_struct hx) hs

/-- Witness for C8 with the three prefixes "1. ", "2)" and "3 ." of the
spec, one on each heading pattern. -/
theorem C8_enum_tolerance_anchoring_witness :
    hToday ("1".toList ++ [] ++ '.' ::
      (" ".toList ++ "today's must-know news".toList)) = true ∧
    hAmer ("2".toList ++ [] ++ ')' :: ([] ++ "americas".toList)) = true ∧
    hGC ("3".toList ++ " ".toList ++ '.' ::
      ([] ++ "greater china".toList)) = true :=
  ⟨(C8_enum_tolerance_anchoring "1".toList [] " ".toList
      "today's must-know news".toList '.' (by decide) (by decide) (by decide)
      (Or.inl rfl) (by decide)).1.1 (by decide),
   (C8_enum_tolerance_anchoring "2".toList [] []
      "americas".toList ')' (by decide) (by decide) (by decide)
      (Or.inr rfl) (by decide)).1.2.1 (by decide),
   (C8_enum_tolerance_anchoring "3".toList " ".toList []
      "greater china".toList '.' (by decide) (by decide) (by decide)
      (Or.inl rfl) (by decide)).1.2.2 (by decide)⟩


end PdfSections
